import Mathlib

/-!
Verification of the `lgit` staging/commit core (a lightweight version-control
engine).  The Python source keeps the staging index as a line-oriented text
file; each line is

  `<mtime:14> <working_hash:40> <staged_hash:40> <committed_hash:40> <path>\n`

and the commands `add`, `rm`, `commit` and `status` manipulate those lines by
fixed character offsets (`state[56:96]` is the staged hash, `state[97:137]`
the committed hash).  This file embeds the index codec, the object store, and
the four commands as pure functions over character lists, mirroring the bodies
of `ver2_lgit.py` / `lgit_3.0.py` function for function, and proves the
specified properties about them.

Strings are modelled as `List Char` (named `Str`), matching Python's
character-indexed slicing.  The SHA-1 compression function itself is external
(`hashlib.sha1`); it enters the model as an abstract function
`sha1 : Str → Str`, with its one relevant property (40-character hex output)
as an explicit hypothesis where needed.
-/

namespace Lgit

/-- Strings as character lists, so Python's index-based slicing is exact. -/
abbrev Str := List Char

/-- Python slice `s[a:b]`. -/
def pySlice (s : Str) (a b : Nat) : Str :=
  (s.drop a).take (b - a)

/-- Python `'{} {} {} {} {}\n'.format(m, w, s, c, p)`: the index line format
used by `create_info`, `change_info`, `create_snap_file` and
`get_status_paths_list`. -/
def fmt5 (m w s c p : Str) : Str :=
  m ++ ' ' :: (w ++ ' ' :: (s ++ ' ' :: (c ++ ' ' :: (p ++ ['\n']))))

/-- The 40-space sentinel `' ' * 40` used for a never-committed path. -/
def sp40 : Str := List.replicate 40 ' '

/-- Python `str(x)` applied to an `Optional` hash: `hash_sha1` returns `None`
on an unreadable file and `format` renders `None` as the text `None`. -/
def pyStr (o : Option Str) : Str :=
  match o with
  | some s => s
  | none => 'N' :: 'o' :: 'n' :: 'e' :: []

/-- Python `s.strip(chr)` for a single strip character. -/
def pyStrip (s : Str) (c : Char) : Str :=
  ((s.dropWhile (· = c)).reverse.dropWhile (· = c)).reverse

/-- Lookup in a Python dict represented as an insertion-ordered key-value
list. -/
def lookupD {κ α : Type} [DecidableEq κ] : List (κ × α) → κ → Option α
  | [], _ => none
  | (k', v) :: rest, k => if k' = k then some v else lookupD rest k

/-- Python dict assignment `d[k] = v`: updates the binding in place if the key
is present (keeping its position), otherwise appends the new binding. -/
def insertD {κ α : Type} [DecidableEq κ] : List (κ × α) → κ → α → List (κ × α)
  | [], k, v => [(k, v)]
  | (k', v') :: rest, k, v =>
      if k' = k then (k, v) :: rest else (k', v') :: insertD rest k v

/-- Python `del d[k]` (callers check membership first). -/
def removeD {κ α : Type} [DecidableEq κ] : List (κ × α) → κ → List (κ × α)
  | [], _ => []
  | (k', v') :: rest, k => if k' = k then rest else (k', v') :: removeD rest k

section DictLemmas

variable {κ α : Type} [DecidableEq κ]

theorem lookupD_insertD_self (d : List (κ × α)) (k : κ) (v : α) :
    lookupD (insertD d k v) k = some v := by
  induction d with
  | nil => simp [insertD, lookupD]
  | cons kv rest ih =>
      by_cases h : kv.1 = k
      · simp [insertD, h, lookupD]
      · simp [insertD, h, lookupD, ih]

theorem lookupD_insertD_ne (d : List (κ × α)) (k k' : κ) (v : α)
    (h : k ≠ k') : lookupD (insertD d k v) k' = lookupD d k' := by
  induction d with
  | nil => simp [insertD, lookupD, h]
  | cons kv rest ih =>
      by_cases hk : kv.1 = k
      · simp [insertD, hk, lookupD, h]
      · simp only [insertD, hk, if_false]
        by_cases hk' : kv.1 = k'
        · simp [lookupD, hk']
        · simp [lookupD, hk', ih]

theorem insertD_of_not_mem (d : List (κ × α)) (k : κ) (v : α)
    (h : ∀ kv ∈ d, kv.1 ≠ k) : insertD d k v = d ++ [(k, v)] := by
  induction d with
  | nil => simp [insertD]
  | cons kv rest ih =>
      have h1 : kv.1 ≠ k := h kv (by simp)
      simp only [insertD, h1, if_false, List.cons_append, List.cons.injEq,
        true_and]
      exact ih fun kv' hkv' => h kv' (by simp [hkv'])

end DictLemmas

section SliceLemmas

/-- Dropping the exact length of a left factor of an append. -/
theorem drop_len (l r : Str) (n : Nat) (h : l.length = n) :
    (l ++ r).drop n = r := by
  subst h; exact List.drop_left l r

/-- Taking the exact length of a left factor of an append. -/
theorem take_len (l r : Str) (n : Nat) (h : l.length = n) :
    (l ++ r).take n = l := by
  subst h; exact List.take_left l r

variable {m w s c p : Str}

theorem fmt5_as_append :
    fmt5 m w s c p =
      (m ++ ' ' :: (w ++ ' ' :: (s ++ ' ' :: (c ++ [' '])))) ++ (p ++ ['\n']) := by
  simp [fmt5, List.append_assoc]

/-- Field 1 of an index line: `state[0:14]` is the mtime. -/
theorem pySlice_fmt5_mtime (hm : m.length = 14) :
    pySlice (fmt5 m w s c p) 0 14 = m := by
  have : fmt5 m w s c p = m ++ (' ' :: (w ++ ' ' :: (s ++ ' ' :: (c ++ ' ' :: (p ++ ['\n']))))) := rfl
  rw [pySlice, this, List.drop_zero]
  exact take_len _ _ _ hm

/-- Field 2 of an index line: `state[15:55]` is the working hash. -/
theorem pySlice_fmt5_working (hm : m.length = 14) (hw : w.length = 40) :
    pySlice (fmt5 m w s c p) 15 55 = w := by
  have h : fmt5 m w s c p =
      (m ++ [' ']) ++ (w ++ (' ' :: (s ++ ' ' :: (c ++ ' ' :: (p ++ ['\n']))))) := by
    simp [fmt5, List.append_assoc]
  rw [pySlice, h, drop_len _ _ 15 (by simp [hm])]
  exact take_len _ _ _ hw

/-- Field 3 of an index line: `state[56:96]` is the staged hash. -/
theorem pySlice_fmt5_staged (hm : m.length = 14) (hw : w.length = 40)
    (hs : s.length = 40) :
    pySlice (fmt5 m w s c p) 56 96 = s := by
  have h : fmt5 m w s c p =
      (m ++ ' ' :: (w ++ [' '])) ++ (s ++ (' ' :: (c ++ ' ' :: (p ++ ['\n'])))) := by
    simp [fmt5, List.append_assoc]
  rw [pySlice, h, drop_len _ _ 56 (by simp [hm, hw])]
  exact take_len _ _ _ hs

/-- Field 4 of an index line: `state[97:137]` is the committed hash. -/
theorem pySlice_fmt5_committed (hm : m.length = 14) (hw : w.length = 40)
    (hs : s.length = 40) (hc : c.length = 40) :
    pySlice (fmt5 m w s c p) 97 137 = c := by
  have h : fmt5 m w s c p =
      (m ++ ' ' :: (w ++ ' ' :: (s ++ [' ']))) ++ (c ++ (' ' :: (p ++ ['\n']))) := by
    simp [fmt5, List.append_assoc]
  rw [pySlice, h, drop_len _ _ 97 (by simp [hm, hw, hs])]
  exact take_len _ _ _ hc

/-- Field 5 of an index line: characters 138 up to the final newline are the
path. -/
theorem pySlice_fmt5_path (hm : m.length = 14) (hw : w.length = 40)
    (hs : s.length = 40) (hc : c.length = 40) :
    pySlice (fmt5 m w s c p) 138 ((fmt5 m w s c p).length - 1) = p := by
  have h : fmt5 m w s c p =
      (m ++ ' ' :: (w ++ ' ' :: (s ++ ' ' :: (c ++ [' '])))) ++ (p ++ ['\n']) :=
    fmt5_as_append
  rw [pySlice, h, drop_len _ _ 138 (by simp [hm, hw, hs, hc])]
  have hlen : ((m ++ ' ' :: (w ++ ' ' :: (s ++ ' ' :: (c ++ [' '])))) ++
      (p ++ ['\n'])).length - 1 - 138 = p.length := by
    simp [hm, hw, hs, hc]; omega
  rw [hlen]
  exact take_len _ _ _ rfl

end SliceLemmas

/-- Python considers these characters whitespace for `str.split()`. -/
def isWs (c : Char) : Bool :=
  c = ' ' || c = '\t' || c = '\n' || c = '\r' || c = '\x0b' || c = '\x0c'

/-- Accumulator worker for `splitWs`: `acc` holds the (reversed) characters of
the token currently being scanned. -/
def splitWsAux : Str → Str → List Str
  | [], acc => if acc.isEmpty then [] else [acc.reverse]
  | ch :: cs, acc =>
      if isWs ch then
        if acc.isEmpty then splitWsAux cs [] else acc.reverse :: splitWsAux cs []
      else splitWsAux cs (ch :: acc)

/-- Python `s.split()` with no arguments: split on runs of whitespace,
dropping empty tokens. -/
def splitWs (s : Str) : List Str := splitWsAux s []

/-- Scanning a whitespace-free chunk just extends the current token. -/
theorem splitWsAux_no_ws (l : Str) (hl : ∀ ch ∈ l, isWs ch = false) :
    ∀ acc : Str, acc ≠ [] ∨ l ≠ [] →
      splitWsAux l acc = [acc.reverse ++ l] := by
  induction l with
  | nil =>
      intro acc hne
      have hacc : acc ≠ [] := by
        rcases hne with h | h
        · exact h
        · exact absurd rfl h
      simp [splitWsAux, List.isEmpty_iff, hacc]
  | cons ch cs ih =>
      intro acc _
      have hch : isWs ch = false := hl ch (by simp)
      have hcs : ∀ ch' ∈ cs, isWs ch' = false := fun ch' h => hl ch' (by simp [h])
      simp only [splitWsAux, hch, Bool.false_eq_true, if_false]
      rw [ih hcs (ch :: acc) (Or.inl (by simp))]
      simp

/-- Splitting at a whitespace character separates the scan into two
independent scans. -/
theorem splitWsAux_ws_split (l₁ l₂ : Str) (ch : Char) (hch : isWs ch = true) :
    ∀ acc : Str,
      splitWsAux (l₁ ++ ch :: l₂) acc = splitWsAux l₁ acc ++ splitWsAux l₂ [] := by
  induction l₁ with
  | nil =>
      intro acc
      by_cases hacc : acc.isEmpty
      · simp [splitWsAux, hch, hacc]
      · simp [splitWsAux, hch, hacc]
  | cons x xs ih =>
      intro acc
      by_cases hx : isWs x
      · by_cases hacc : acc.isEmpty
        · simp only [List.cons_append, splitWsAux, hx, if_true, hacc,
            List.append_eq, ih]
        · simp only [List.cons_append, splitWsAux, hx, if_true, hacc,
            if_false, List.append_eq, ih, List.cons_append]
          simp
      · simp only [List.cons_append, splitWsAux, hx, Bool.false_eq_true,
          if_false, List.append_eq, ih]

/-- The last token of `prefixPart ++ ' ' ++ tok` is `tok`, whenever `tok` is
non-empty and whitespace-free; nothing is assumed about `prefixPart`. -/
theorem splitWs_last_token (pre tok : Str) (hne : tok ≠ [])
    (htok : ∀ ch ∈ tok, isWs ch = false) :
    (splitWs (pre ++ ' ' :: tok)).getLast? = some tok := by
  have hsp : isWs ' ' = true := by decide
  rw [splitWs, splitWsAux_ws_split pre tok ' ' hsp []]
  rw [splitWsAux_no_ws tok htok [] (Or.inr hne)]
  simp

/-- Accumulator worker for `pyLines`: Python text-file iteration, yielding
each line with its trailing newline, plus a final newline-less chunk when the
file does not end in a newline. -/
def pyLinesAux : Str → Str → List Str
  | [], acc => if acc.isEmpty then [] else [acc.reverse]
  | ch :: cs, acc =>
      if ch = '\n' then (acc.reverse ++ ['\n']) :: pyLinesAux cs []
      else pyLinesAux cs (ch :: acc)

/-- Python `for line in file`: the file content split into lines, each line
keeping its `'\n'`. -/
def pyLines (s : Str) : List Str := pyLinesAux s []

/-- Iterating over a file whose first line is `l ++ '\n'` (with `l`
newline-free) yields that line and then the lines of the remainder. -/
theorem pyLinesAux_chunk (l rest : Str) (hl : ∀ ch ∈ l, ch ≠ '\n') :
    ∀ acc : Str,
      pyLinesAux (l ++ '\n' :: rest) acc =
        (acc.reverse ++ l ++ ['\n']) :: pyLinesAux rest [] := by
  induction l with
  | nil => intro acc; simp [pyLinesAux]
  | cons x xs ih =>
      intro acc
      have hx : x ≠ '\n' := hl x (by simp)
      simp only [List.cons_append, pyLinesAux, hx, if_false, List.append_eq]
      rw [ih (fun ch h => hl ch (by simp [h])) (x :: acc)]
      simp

/-- One index entry, as the data model describes it: a 14-digit mtime, three
40-character hash fields and the tracked path. -/
structure Entry where
  mtime : Str
  working : Str
  staged : Str
  committed : Str
  path : Str
deriving DecidableEq

/-- Serialization of an entry into its index line, exactly the format string
`'{} {} {} {} {}\n'` the source uses everywhere. -/
def encodeE (e : Entry) : Str :=
  fmt5 e.mtime e.working e.staged e.committed e.path

/-- A hexadecimal digest character (lowercase, as `hexdigest` produces). -/
def isHexChar (c : Char) : Bool :=
  c.isDigit || ('a' ≤ c && c ≤ 'f')

/-- Well-formedness of the four fixed-width fields: 14 decimal digits of
mtime, two 40-hex-character hashes, and a committed hash that is either
40 hex characters or the 40-space sentinel. -/
abbrev WfFields (e : Entry) : Prop :=
  e.mtime.length = 14 ∧ (∀ c ∈ e.mtime, c.isDigit) ∧
  e.working.length = 40 ∧ (∀ c ∈ e.working, isHexChar c) ∧
  e.staged.length = 40 ∧ (∀ c ∈ e.staged, isHexChar c) ∧
  e.committed.length = 40 ∧
    ((∀ c ∈ e.committed, isHexChar c) ∨ e.committed = sp40)

/-- A fully well-formed entry: well-formed fields plus a non-empty,
whitespace-free path. -/
abbrev WfEntry (e : Entry) : Prop :=
  WfFields e ∧ e.path ≠ [] ∧ ∀ c ∈ e.path, isWs c = false

/-- Reading an entry's fields back off its line by the fixed byte offsets of
the wire format (0-13, 15-54, 56-95, 97-136, 138 to the newline). -/
def decodeLine (v : Str) : Entry :=
  { mtime := pySlice v 0 14
    working := pySlice v 15 55
    staged := pySlice v 56 96
    committed := pySlice v 97 137
    path := pySlice v 138 (v.length - 1) }

theorem isWs_of_isDigit (c : Char) (h : c.isDigit = true) : isWs c = false := by
  simp only [Char.isDigit, Bool.and_eq_true, decide_eq_true_eq] at h
  obtain ⟨h1, h2⟩ := h
  cases hw : isWs c
  · rfl
  · exfalso
    simp only [isWs, Bool.or_eq_true, decide_eq_true_eq] at hw
    rcases hw with ((((hc | hc) | hc) | hc) | hc) | hc <;>
      (subst hc; exact absurd h1 (by decide))

theorem isWs_of_isHexChar (c : Char) (h : isHexChar c = true) : isWs c = false := by
  simp only [isHexChar, Bool.or_eq_true, Bool.and_eq_true,
    decide_eq_true_eq] at h
  rcases h with h | ⟨h1, h2⟩
  · exact isWs_of_isDigit c h
  · cases hw : isWs c
    · rfl
    · exfalso
      simp only [isWs, Bool.or_eq_true, decide_eq_true_eq] at hw
      rcases hw with ((((hc | hc) | hc) | hc) | hc) | hc <;>
        (subst hc; exact absurd h1 (by decide))

/-- A well-formed entry's encoded line contains exactly one newline: the final
one.  Stated as: every character of the line except the last is not `'\n'`. -/
theorem encodeE_body_no_newline (e : Entry) (hf : WfFields e)
    (hp : ∀ c ∈ e.path, isWs c = false) :
    ∀ ch ∈ (encodeE e).dropLast, ch ≠ '\n' := by
  obtain ⟨_, hmd, _, hwh, _, hsh, _, hch⟩ := hf
  have hbody : (encodeE e).dropLast =
      e.mtime ++ ' ' :: (e.working ++ ' ' :: (e.staged ++ ' ' ::
        (e.committed ++ ' ' :: e.path))) := by
    have h : encodeE e =
        (e.mtime ++ ' ' :: (e.working ++ ' ' :: (e.staged ++ ' ' ::
          (e.committed ++ ' ' :: e.path)))) ++ ['\n'] := by
      simp [encodeE, fmt5, List.append_assoc]
    rw [h, List.dropLast_concat]
  rw [hbody]
  intro ch hch'
  have hnl : ∀ c : Char, isWs c = false → c ≠ '\n' := by
    intro c h heq; subst heq; simp [isWs] at h
  simp only [List.mem_append, List.mem_cons] at hch'
  rcases hch' with h | h | h | h | h | h | h | h | h
  · exact hnl ch (isWs_of_isDigit ch (hmd ch h))
  · subst h; decide
  · exact hnl ch (isWs_of_isHexChar ch (hwh ch h))
  · subst h; decide
  · exact hnl ch (isWs_of_isHexChar ch (hsh ch h))
  · subst h; decide
  · rcases hch with hc | hc
    · exact hnl ch (isWs_of_isHexChar ch (hc ch h))
    · rw [hc] at h
      have hsp : ch = ' ' := by
        simpa [sp40] using List.eq_of_mem_replicate h
      subst hsp; decide
  · subst h; decide
  · exact hnl ch (hp ch h)

/-- Decoding inverts encoding on entries with well-formed fields. -/
theorem decodeLine_encodeE (e : Entry) (hf : WfFields e) :
    decodeLine (encodeE e) = e := by
  obtain ⟨hm, _, hw, _, hs, _, hc, _⟩ := hf
  simp only [decodeLine, encodeE]
  cases e
  simp only [Entry.mk.injEq]
  exact ⟨pySlice_fmt5_mtime hm, pySlice_fmt5_working hm hw,
    pySlice_fmt5_staged hm hw hs, pySlice_fmt5_committed hm hw hs hc,
    pySlice_fmt5_path hm hw hs hc⟩

/-- The key the index loader computes for a line: the last whitespace token of
the line with its final character removed, i.e. Python's
`line[:-1].split()[-1]` (`none` models the `IndexError` on an empty token
list). -/
def loadKey (line : Str) : Option Str :=
  (splitWs line.dropLast).getLast?

/-- Worker for `get_index_dict`: fold the lines into a dict, aborting on a
line with no tokens. -/
def loadLoop : List Str → List (Str × Str) → Option (List (Str × Str))
  | [], d => some d
  | line :: rest, d =>
      match loadKey line with
      | none => none
      | some k => loadLoop rest (insertD d k line)

/-- Embedding of `get_index_dict` (reading `.lgit/index`): build the
path-keyed dict of raw lines; `none` models the uncaught `IndexError` a
token-less line raises, which aborts the whole load. -/
def get_index_dict (content : Str) : Option (List (Str × Str)) :=
  loadLoop (pyLines content) []

/-- Embedding of `update_index_file`: `''.join(index.values())`. -/
def update_index_file (d : List (Str × Str)) : Str :=
  (d.map Prod.snd).flatten

/-- The in-memory index: insertion-ordered mapping from path to raw line. -/
abbrev Dict := List (Str × Str)

/-- The working tree: path to (readable content, 14-character mtime string).
A path absent from the list is a missing file (`getmtime` and `open` both
raise).  A path mapped to `(none, mt)` exists but cannot be read: `getmtime`
still succeeds with `mt`, while `open` raises `PermissionError`, so
`hash_sha1` returns `None`. -/
abbrev Tree := List (Str × (Option Str × Str))

/-- The object store: `(first-2-chars, remaining-38-chars)` of a digest to
blob content, mirroring `objects/<2>/<38>` on disk. -/
abbrev Store := List ((Str × Str) × Str)

/-- The persistent repository state: working tree, object store, index file
(in parsed form), config file content, commit files and snapshot files. -/
structure Repo where
  tree : Tree
  store : Store
  index : Dict
  config : Str
  commits : Dict
  snapshots : Dict
deriving DecidableEq

/-- Embedding of `hash_sha1`: read the file and hash it; `None` when `open`
raises `PermissionError` (file present but unreadable) or
`FileNotFoundError` (file missing). -/
def hash_sha1 (sha1 : Str → Str) (tree : Tree) (path : Str) : Option Str :=
  match lookupD tree path with
  | none => none
  | some cm => cm.1.map sha1

/-- Embedding of `get_timestamp`: `getmtime` raises when the file is absent
(`none`); otherwise the 14-character `YYYYMMDDHHMMSS` string — it succeeds
even on a file whose content cannot be read. -/
def get_timestamp (tree : Tree) (path : Str) : Option Str :=
  (lookupD tree path).map fun cm => cm.2

/-- Embedding of `add_file` (with `make_copy`): create the 2-character shard
directory and write the blob `objects/<sha[:2]>/<sha[2:]>`; opening with
`'w+'` overwrites an existing file with the same content. -/
def add_file (store : Store) (content : Str) (sha : Str) : Store :=
  insertD store (sha.take 2, sha.drop 2) content

/-- Embedding of `create_info` for a file already read as `(content, mt)`:
mtime, working and staged hash both `hash_sha1(path)`, committed field the
40-space sentinel. -/
def create_info (sha1 : Str → Str) (content mt path : Str) : Str :=
  fmt5 mt (sha1 content) (sha1 content) sp40 path

/-- Embedding of `change_info`: refresh mtime/working/staged from the file,
keep `state[97:137]` (the committed hash) from the existing line. -/
def change_info (sha1 : Str → Str) (content mt state path : Str) : Str :=
  fmt5 mt (sha1 content) (sha1 content) (pySlice state 97 137) path

/-- The body of the `lgit_add` loop over resolved paths.  An unreadable file
makes `hash_sha1` return `None`, and `add_file(path, None)` then evaluates
`None[:2]`, raising `TypeError`: the command dies there (`false`), keeping
blobs already stored but never rewriting the index file. -/
def add_loop (sha1 : Str → Str) (tree : Tree) :
    Store × Dict → List Str → (Store × Dict) × Bool
  | acc, [] => (acc, true)
  | (store, index), path :: rest =>
      match lookupD tree path with
      | none => ((store, index), false)
      | some (none, _) => ((store, index), false)
      | some (some content, mt) =>
          let store' := add_file store content (sha1 content)
          let index' :=
            match lookupD index path with
            | none => insertD index path (create_info sha1 content mt path)
            | some state =>
                insertD index path (change_info sha1 content mt state path)
          add_loop sha1 tree (store', index') rest

/-- Embedding of `lgit_add`: load the index, process each path, and rewrite
the index file only if the loop completed. -/
def lgit_add (sha1 : Str → Str) (st : Repo) (paths : List Str) :
    Except Repo Repo :=
  match add_loop sha1 st.tree (st.store, st.index) paths with
  | (acc, true) => .ok { st with store := acc.1, index := acc.2 }
  | (acc, false) => .error { st with store := acc.1 }

/-- The body of the `lgit_remove` loop: a tracked existing file is unlinked
and dropped from the index; a directory argument or an untracked/missing path
prints a fatal error and `exit()`s (`false`), before the index file is
rewritten. -/
def rm_loop : Tree × Dict → List Str → (Tree × Dict) × Bool
  | acc, [] => (acc, true)
  | (tree, index), path :: rest =>
      if (lookupD tree path).isSome && (lookupD index path).isSome then
        rm_loop (removeD tree path, removeD index path) rest
      else ((tree, index), false)

/-- Embedding of `lgit_remove`: on `exit()` the working-tree unlinks already
performed persist but the index file is left as it was. -/
def lgit_remove (st : Repo) (paths : List Str) : Except Repo Repo :=
  match rm_loop (st.tree, st.index) paths with
  | ((tree', index'), true) => .ok { st with tree := tree', index := index' }
  | ((tree', _), false) => .error { st with tree := tree' }

/-- Embedding of `create_commit_file`: read the author from the config file,
stripping newlines; an empty author `exit()`s before anything is written
(`.error` with the state unchanged); otherwise write
`<author>\n<tst_2>\n\n<message>\n` at `commits/<tst_1>`. -/
def create_commit_file (st : Repo) (message t1 t2 : Str) : Except Repo Repo :=
  let author := pyStrip st.config '\n'
  if author = [] then .error st
  else
    .ok { st with
      commits := insertD st.commits t1
        (author ++ '\n' :: (t2 ++ '\n' :: '\n' :: (message ++ ['\n']))) }

/-- Snapshot-file append semantics of `open(..., 'a+')`: extend the file if
present, create it otherwise. -/
def appendD : Dict → Str → Str → Dict
  | [], k, v => [(k, v)]
  | (k', v') :: rest, k, v =>
      if k' = k then (k', v' ++ v) :: rest else (k', v') :: appendD rest k v

/-- The body of the `create_snap_file` loop: for every entry (in index
order), rewrite the entry as
`<fresh mtime> <str(hash_sha1(path))> <state[56:96]> <state[56:96]> <path>`
and append `state[56:96] + ' ' + path + '\n'` to the snapshot being built.
`get_timestamp` raises `FileNotFoundError` on a vanished file (`false`),
leaving the lines appended so far; a file that exists but cannot be read
does NOT abort: `hash_sha1` returns `None` and `format` renders the literal
four-character text `None` into the working-hash field. -/
def snap_loop (sha1 : Str → Str) (tree : Tree) :
    Dict → Str → Dict → (Dict × Str) × Bool
  | newIdx, snap, [] => ((newIdx, snap), true)
  | newIdx, snap, (path, state) :: rest =>
      match lookupD tree path with
      | none => ((newIdx, snap), false)
      | some (copt, mt) =>
          snap_loop sha1 tree
            (newIdx ++ [(path,
              fmt5 mt (pyStr (copt.map sha1)) (pySlice state 56 96)
                (pySlice state 56 96) path)])
            (snap ++ (pySlice state 56 96 ++ ' ' :: (path ++ ['\n'])))
            rest

/-- Embedding of `lgit_commit`: write the commit record (unless the author is
empty, which aborts everything), then build the snapshot while advancing
each entry's committed hash to its staged hash, then rewrite the index file
(skipped if the snapshot loop raised). -/
def lgit_commit (sha1 : Str → Str) (st : Repo) (message t1 t2 : Str) :
    Except Repo Repo :=
  match create_commit_file st message t1 t2 with
  | .error s => .error s
  | .ok st1 =>
      match snap_loop sha1 st1.tree [] [] st1.index with
      | ((newIdx, snap), true) =>
          .ok { st1 with
            index := newIdx
            snapshots := if snap = [] then st1.snapshots
              else appendD st1.snapshots t1 snap }
      | ((_, snap), false) =>
          .error { st1 with
            snapshots := if snap = [] then st1.snapshots
              else appendD st1.snapshots t1 snap }

/-- Python `state[56:96] != hash_sha1(path)`: a `str` compared against an
`Optional[str]` — unequal strings differ, and `str != None` is `True`. -/
def pyNeHash (s : Str) (o : Option Str) : Bool :=
  match o with
  | some t => s ≠ t
  | none => true

/-- The body of the `get_status_paths_list` loop: refresh each entry's mtime
and working hash, and classify it into `to_be_committed` when
`state[56:96] != state[97:137]` and into `not_staged_for_commit` when
`state[56:96] != hash_sha1(path)`.  `get_timestamp` on a vanished file raises
before the entry is classified (`false`); a file that exists but cannot be
read does NOT abort: `format` renders the literal text `None` into the
working-hash field and the `!= None` comparison classifies the path as not
staged. -/
def status_loop (sha1 : Str → Str) (tree : Tree) :
    Dict → List Str → List Str → Dict → (Dict × List Str × List Str) × Bool
  | newIdx, l1, l2, [] => ((newIdx, l1, l2), true)
  | newIdx, l1, l2, (path, state) :: rest =>
      match lookupD tree path with
      | none => ((newIdx, l1, l2), false)
      | some (copt, mt) =>
          status_loop sha1 tree
            (newIdx ++ [(path,
              fmt5 mt (pyStr (copt.map sha1)) (pySlice state 56 96)
                (pySlice state 97 137) path)])
            (if pySlice state 56 96 ≠ pySlice state 97 137
              then l1 ++ [path] else l1)
            (if pyNeHash (pySlice state 56 96) (copt.map sha1)
              then l2 ++ [path] else l2)
            rest

/-- Embedding of `get_status_paths_list`: the refreshed index plus the two
classification lists. -/
def get_status_paths_list (sha1 : Str → Str) (tree : Tree) (index : Dict) :
    (Dict × List Str × List Str) × Bool :=
  status_loop sha1 tree [] [] [] index

/-- Embedding of `lgit_status`'s effect on persisted state: rewrite the index
with refreshed working hashes, unless the loop raised. -/
def lgit_status (sha1 : Str → Str) (st : Repo) : Except Repo Repo :=
  match get_status_paths_list sha1 st.tree st.index with
  | ((newIdx, _, _), true) => .ok { st with index := newIdx }
  | (_, false) => .error st

/-- The four index-mutating commands of the engine. -/
inductive Cmd where
  | add (paths : List Str)
  | rm (paths : List Str)
  | commit (message t1 t2 : Str)
  | status
deriving DecidableEq

/-- Dispatch of a command against a repository state, as in `main`. -/
def runCmd (sha1 : Str → Str) (c : Cmd) (st : Repo) : Except Repo Repo :=
  match c with
  | .add paths => lgit_add sha1 st paths
  | .rm paths => lgit_remove st paths
  | .commit message t1 t2 => lgit_commit sha1 st message t1 t2
  | .status => lgit_status sha1 st

/-- The object-store `put` of the spec, as `lgit_add` performs it:
`add_file(path, hash_sha1(path))` computes the digest of the content and
stores the blob under it, sharded 2 + 38. -/
def put (sha1 : Str → Str) (store : Store) (b : Str) : Str × Store :=
  (sha1 b, add_file store b (sha1 b))

/-- How many blobs the store holds under a given digest. -/
def storeCount (store : Store) (digest : Str) : Nat :=
  (store.filter fun kv => kv.1 = (digest.take 2, digest.drop 2)).length

/-- A digest's blob is physically present in the object store. -/
abbrev blobPresent (store : Store) (digest : Str) : Prop :=
  (lookupD store (digest.take 2, digest.drop 2)).isSome = true

/-- Every index entry's staged hash (`state[56:96]`) identifies a blob
physically present in the object store. -/
abbrev StoreInv (st : Repo) : Prop :=
  ∀ pv ∈ st.index, blobPresent st.store (pySlice pv.2 56 96)

/-- Every working-tree mtime string has the contractual 14 characters. -/
abbrev WfTree (st : Repo) : Prop :=
  ∀ pcm ∈ st.tree, (pcm.2.2 : Str).length = 14

section MoreDictLemmas

variable {κ α : Type} [DecidableEq κ]

theorem lookupD_append_right (d₁ d₂ : List (κ × α)) (k : κ)
    (h : ∀ kv ∈ d₁, kv.1 ≠ k) : lookupD (d₁ ++ d₂) k = lookupD d₂ k := by
  induction d₁ with
  | nil => simp
  | cons kv rest ih =>
      have h1 : kv.1 ≠ k := h kv (by simp)
      simp only [List.cons_append, lookupD, h1, if_false]
      exact ih fun kv' hkv' => h kv' (by simp [hkv'])

theorem insertD_append_same (d : List (κ × α)) (k : κ) (v : α)
    (h : ∀ kv ∈ d, kv.1 ≠ k) :
    insertD (d ++ [(k, v)]) k v = d ++ [(k, v)] := by
  induction d with
  | nil => simp [insertD]
  | cons kv rest ih =>
      have h1 : kv.1 ≠ k := h kv (by simp)
      simp only [List.cons_append, insertD, h1, if_false, List.cons.injEq,
        true_and]
      exact ih fun kv' hkv' => h kv' (by simp [hkv'])

theorem mem_insertD (d : List (κ × α)) (k : κ) (v : α) (kv : κ × α)
    (h : kv ∈ insertD d k v) : kv = (k, v) ∨ kv ∈ d := by
  induction d with
  | nil => simpa [insertD] using h
  | cons kv' rest ih =>
      by_cases hk : kv'.1 = k
      · simp only [insertD, hk, if_true, List.mem_cons] at h
        rcases h with h | h
        · exact Or.inl h
        · exact Or.inr (by simp [h])
      · simp only [insertD, hk, if_false, List.mem_cons] at h
        rcases h with h | h
        · exact Or.inr (by simp [h])
        · rcases ih h with h' | h'
          · exact Or.inl h'
          · exact Or.inr (by simp [h'])

theorem mem_removeD (d : List (κ × α)) (k : κ) (kv : κ × α)
    (h : kv ∈ removeD d k) : kv ∈ d := by
  induction d with
  | nil => simp [removeD] at h
  | cons kv' rest ih =>
      by_cases hk : kv'.1 = k
      · simp only [removeD, hk, if_true] at h
        exact List.mem_cons_of_mem _ h
      · simp only [removeD, hk, if_false, List.mem_cons] at h
        rcases h with h | h
        · exact by simp [h]
        · exact List.mem_cons_of_mem _ (ih h)

end MoreDictLemmas

/-- Appending a snapshot chunk under a fresh key makes it the file's whole
content. -/
theorem lookupD_appendD_self (d : Dict) (k v : Str)
    (hfresh : lookupD d k = none) : lookupD (appendD d k v) k = some v := by
  induction d with
  | nil => simp [appendD, lookupD]
  | cons kv rest ih =>
      obtain ⟨k', v'⟩ := kv
      by_cases hk : k' = k
      · simp [lookupD, hk] at hfresh
      · simp only [lookupD, hk, if_false] at hfresh
        simp only [appendD, hk, if_false, lookupD]
        exact ih hfresh

/-- A fixed 40-character digest used as a stand-in hash function in concrete
witnesses. -/
def digest40 : Str := ('0' :: '1' :: '2' :: '3' :: '4' :: '5' :: []) ++
  List.replicate 34 'a'

/-- A constant hash function for concrete witnesses. -/
def constSha1 : Str → Str := fun _ => digest40

/-- Concrete repository whose config file holds only a newline (empty
author). -/
def emptyCfgRepo : Repo :=
  { tree := [], store := [], index := [(['a'], ['x'])],
    config := ['\n'], commits := [], snapshots := [] }

/-- C5: if the author read from the config at commit time is empty after
stripping newlines, `lgit_commit` exits before writing anything: the run
aborts (`Except.error`) with the repository state exactly as it was — no
commit record, no snapshot file, and an unchanged index file. -/
theorem commit_empty_author_aborts (sha1 : Str → Str) (st : Repo)
    (message t1 t2 : Str) (h : pyStrip st.config '\n' = []) :
    lgit_commit sha1 st message t1 t2 = Except.error st := by
  simp [lgit_commit, create_commit_file, h]

/-- Witness for C5 at a concrete state with a newline-only config. -/
theorem commit_empty_author_aborts_witness :
    lgit_commit constSha1 emptyCfgRepo ['m'] ['t'] ['u'] =
      Except.error emptyCfgRepo :=
  commit_empty_author_aborts constSha1 emptyCfgRepo ['m'] ['t'] ['u']
    (by decide)

/-- C6: `put` returns the digest of the content, stores the blob under that
digest sharded as a 2-character directory and 38-character filename, and a
second `put` of the same bytes changes nothing: afterwards exactly one blob
sits under the digest, with the original content. -/
theorem put_content_addressed (sha1 : Str → Str) (store : Store) (b : Str)
    (hfresh : storeCount store (sha1 b) = 0) :
    (put sha1 store b).1 = sha1 b ∧
    lookupD (put sha1 store b).2 ((sha1 b).take 2, (sha1 b).drop 2) =
      some b ∧
    put sha1 (put sha1 store b).2 b = put sha1 store b ∧
    storeCount (put sha1 (put sha1 store b).2 b).2 (sha1 b) = 1 := by
  set key : Str × Str := ((sha1 b).take 2, (sha1 b).drop 2) with hkey
  have hfilter : (store.filter fun kv => kv.1 = key) = [] :=
    List.length_eq_zero.mp hfresh
  have hmem : ∀ kv ∈ store, kv.1 ≠ key := by
    intro kv hkv heq
    have : kv ∈ store.filter fun kv => kv.1 = key :=
      List.mem_filter.mpr ⟨hkv, by simp [heq]⟩
    rw [hfilter] at this
    exact absurd this (List.not_mem_nil kv)
  have hstore1 : (put sha1 store b).2 = store ++ [(key, b)] := by
    simp only [put, add_file]
    exact insertD_of_not_mem store key b hmem
  have hsame : put sha1 (put sha1 store b).2 b = put sha1 store b := by
    rw [hstore1]
    simp only [put, add_file, ← hkey, Prod.mk.injEq, true_and]
    rw [insertD_of_not_mem store key b hmem]
    exact insertD_append_same store key b hmem
  refine ⟨rfl, ?_, hsame, ?_⟩
  · rw [hstore1, lookupD_append_right store [(key, b)] key hmem]
    simp [lookupD]
  · rw [hsame, hstore1]
    simp only [storeCount, List.filter_append, hfilter]
    simp [List.filter]

/-- Witness for C6: a fresh empty store and a two-character blob. -/
theorem put_content_addressed_witness :
    (put constSha1 [] ['h', 'i']).1 = constSha1 ['h', 'i'] ∧
    lookupD (put constSha1 [] ['h', 'i']).2
      ((constSha1 ['h', 'i']).take 2, (constSha1 ['h', 'i']).drop 2) =
      some ['h', 'i'] ∧
    put constSha1 (put constSha1 [] ['h', 'i']).2 ['h', 'i'] =
      put constSha1 [] ['h', 'i'] ∧
    storeCount (put constSha1 (put constSha1 [] ['h', 'i']).2 ['h', 'i']).2
      (constSha1 ['h', 'i']) = 1 :=
  put_content_addressed constSha1 [] ['h', 'i'] (by decide)

/-- The abort condition of the index loader, over all lines. -/
theorem loadLoop_none_iff (lines : List Str) :
    ∀ d, (loadLoop lines d = none ↔ ∃ line ∈ lines, loadKey line = none) := by
  induction lines with
  | nil => intro d; simp [loadLoop]
  | cons line rest ih =>
      intro d
      cases hk : loadKey line with
      | none => simp [loadLoop, hk]
      | some k => simp [loadLoop, hk, ih]

/-- C9 counterexample: the two-field line `"ab cd\n"` has the wrong field
count, yet loading it does not abort and does not skip it — the loader
accepts it, keyed by its last token. -/
theorem malformed_line_accepted :
    (∃ line ∈ pyLines ['a', 'b', ' ', 'c', 'd', '\n'],
        (splitWs line.dropLast).length ≠ 5) ∧
    get_index_dict ['a', 'b', ' ', 'c', 'd', '\n'] =
      some [(['c', 'd'], ['a', 'b', ' ', 'c', 'd', '\n'])] := by decide

/-- C9 (amended): loading parses every line and keys it by its last
whitespace token whatever its field count; the load aborts with an error
exactly when some line has no whitespace token at all (empty or
whitespace-only after dropping its final character). -/
theorem index_load_abort_iff (content : Str) :
    get_index_dict content = none ↔
      ∃ line ∈ pyLines content, loadKey line = none :=
  loadLoop_none_iff (pyLines content) []

/-- Concrete repository for C7: file `b` is readable; file `a` exists but
cannot be read (`open` raises `PermissionError`, so `hash_sha1` returns
`None`). -/
def permRepo : Repo :=
  { tree := [(['a'], ((none : Option Str), ('2' :: '0' :: '2' :: '4' :: []) ++
      List.replicate 10 '0')),
      (['b'], (some ['w'], ('2' :: '0' :: '2' :: '4' :: []) ++
      List.replicate 10 '0'))],
    store := [], index := [], config := ['u', '\n'], commits := [],
    snapshots := [] }

/-- C7: a permission failure reading the first file of an `add` batch is not
recovered: `hash_sha1` returns `None`, `add_file(path, None)` evaluates
`None[:2]` and raises `TypeError`, so the whole invocation dies with nothing
staged — the remaining readable file `b` is never added (the index file is
never rewritten), although adding `b` alone would have succeeded. -/
theorem add_batch_dies_on_unreadable_file :
    lgit_add constSha1 permRepo [['a'], ['b']] =
      Except.error permRepo ∧
    (lgit_add constSha1 permRepo [['b']]).isOk = true := by
  refine ⟨rfl, rfl⟩

/-- An encoded line is its newline-less body followed by the final newline,
and that body ends in the path preceded by a space. -/
theorem encodeE_dropLast (e : Entry) :
    (encodeE e).dropLast =
      (e.mtime ++ ' ' :: (e.working ++ ' ' :: (e.staged ++ ' ' ::
        e.committed))) ++ ' ' :: e.path := by
  have h : encodeE e =
      (e.mtime ++ ' ' :: (e.working ++ ' ' :: (e.staged ++ ' ' ::
        (e.committed ++ ' ' :: e.path)))) ++ ['\n'] := by
    simp [encodeE, fmt5, List.append_assoc]
  rw [h, List.dropLast_concat]
  simp [List.append_assoc]

/-- The loader's key for an encoded entry with a non-empty, whitespace-free
path is exactly that path. -/
theorem loadKey_encodeE (e : Entry) (hne : e.path ≠ [])
    (hws : ∀ ch ∈ e.path, isWs ch = false) :
    loadKey (encodeE e) = some e.path := by
  unfold loadKey
  rw [encodeE_dropLast]
  exact splitWs_last_token _ e.path hne hws

/-- C10: the index loader keys every line by the last whitespace-separated
token of the line.  For an entry whose path has no internal whitespace the
loaded key is the stored path; for a path of the form `p₁ ++ ' ' ++ p₂` with
a whitespace-free trailing token `p₂`, the loaded key is only `p₂`, which
differs from the full path. -/
theorem index_key_is_last_token (e : Entry) :
    ((e.path ≠ [] ∧ ∀ ch ∈ e.path, isWs ch = false) →
      loadKey (encodeE e) = some e.path) ∧
    (∀ p₁ p₂ : Str, e.path = p₁ ++ ' ' :: p₂ → p₂ ≠ [] →
      (∀ ch ∈ p₂, isWs ch = false) →
      loadKey (encodeE e) = some p₂ ∧ p₂ ≠ e.path) := by
  constructor
  · rintro ⟨hne, hws⟩
    exact loadKey_encodeE e hne hws
  · intro p₁ p₂ hp hne hws
    constructor
    · unfold loadKey
      rw [encodeE_dropLast, hp]
      have hassoc :
          (e.mtime ++ ' ' :: (e.working ++ ' ' :: (e.staged ++ ' ' ::
            e.committed))) ++ ' ' :: (p₁ ++ ' ' :: p₂) =
          ((e.mtime ++ ' ' :: (e.working ++ ' ' :: (e.staged ++ ' ' ::
            e.committed))) ++ ' ' :: p₁) ++ ' ' :: p₂ := by
        simp [List.append_assoc]
      rw [hassoc]
      exact splitWs_last_token _ p₂ hne hws
    · intro heq
      have hlen := congrArg List.length hp
      rw [← heq] at hlen
      simp at hlen
      omega

/-- Witness for C10 at a concrete well-formed entry. -/
def entryA : Entry :=
  { mtime := ("20240101000000".data), working := digest40, staged := digest40,
    committed := sp40, path := ("a.txt".data) }

/-- Witness for C10: the loaded key of `entryA`'s line is its path. -/
theorem index_key_is_last_token_witness :
    loadKey (encodeE entryA) = some entryA.path :=
  (index_key_is_last_token entryA).1 (by decide)

/-- Joining newline-terminated, internally newline-free chunks and iterating
the result as a text file yields the chunks back. -/
theorem pyLines_flatten (lines : List Str)
    (h : ∀ l ∈ lines, ∃ body, l = body ++ ['\n'] ∧ ∀ ch ∈ body, ch ≠ '\n') :
    pyLines lines.flatten = lines := by
  induction lines with
  | nil => rfl
  | cons l rest ih =>
      obtain ⟨body, hbody, hnl⟩ := h l (by simp)
      have h1 : pyLines (l :: rest).flatten =
          pyLinesAux (body ++ '\n' :: rest.flatten) [] := by
        rw [List.flatten_cons, hbody, pyLines]
        simp [List.append_assoc]
      rw [h1, pyLinesAux_chunk body rest.flatten hnl []]
      simp only [List.reverse_nil, List.nil_append]
      rw [← hbody]
      exact congrArg (l :: ·) (ih fun l' hl' => h l' (by simp [hl']))

/-- Loading the concatenation of encoded well-formed entries with distinct
paths appends them, in order, to whatever dict has been accumulated. -/
theorem loadLoop_append_keys (es : List Entry)
    (hwf : ∀ e ∈ es, WfEntry e) :
    ∀ d : Dict, (∀ kv ∈ d, ∀ e ∈ es, kv.1 ≠ e.path) →
      (es.map (·.path)).Nodup →
      loadLoop (es.map encodeE) d =
        some (d ++ es.map fun e => (e.path, encodeE e)) := by
  induction es with
  | nil => intro d _ _; simp [loadLoop]
  | cons e rest ih =>
      intro d hd hnd
      obtain ⟨_, hne, hws⟩ := hwf e (by simp)
      have hkey : loadKey (encodeE e) = some e.path := loadKey_encodeE e hne hws
      simp only [List.map_cons, loadLoop, hkey]
      rw [insertD_of_not_mem d e.path (encodeE e)
        (fun kv hkv => hd kv hkv e (by simp))]
      have hd' : ∀ kv ∈ d ++ [(e.path, encodeE e)], ∀ e' ∈ rest,
          kv.1 ≠ e'.path := by
        intro kv hkv e' he'
        rcases List.mem_append.mp hkv with h | h
        · exact hd kv h e' (by simp [he'])
        · simp only [List.mem_singleton] at h
          subst h
          simp only [List.map_cons, List.nodup_cons, List.mem_map] at hnd
          intro heq
          exact hnd.1 ⟨e', he', heq.symm⟩
      rw [ih (fun e' he' => hwf e' (by simp [he'])) _ hd'
        (by simpa using (List.nodup_cons.mp (by simpa using hnd)).2)]
      simp

/-- C4: saving any finite mapping of whitespace-free paths to well-formed
entries and loading it back yields the same mapping, and each stored line
decodes field-for-field to the entry it came from. -/
theorem index_roundtrip (es : List Entry)
    (hwf : ∀ e ∈ es, WfEntry e)
    (hnd : (es.map (·.path)).Nodup) :
    get_index_dict (update_index_file (es.map fun e => (e.path, encodeE e))) =
      some (es.map fun e => (e.path, encodeE e)) ∧
    ∀ e ∈ es, decodeLine (encodeE e) = e := by
  constructor
  · have hlines : (es.map fun e => (e.path, encodeE e)).map Prod.snd =
        es.map encodeE := by simp
    rw [get_index_dict, update_index_file, hlines, pyLines_flatten _ ?_]
    · simpa using loadLoop_append_keys es hwf [] (by simp) hnd
    · intro l hl
      obtain ⟨e, he, rfl⟩ := List.mem_map.mp hl
      obtain ⟨hf, hne, hws⟩ := hwf e he
      refine ⟨(encodeE e).dropLast, ?_, encodeE_body_no_newline e hf hws⟩
      have h : encodeE e =
          (e.mtime ++ ' ' :: (e.working ++ ' ' :: (e.staged ++ ' ' ::
            (e.committed ++ ' ' :: e.path)))) ++ ['\n'] := by
        simp [encodeE, fmt5, List.append_assoc]
      rw [h, List.dropLast_concat]
  · intro e he
    exact decodeLine_encodeE e (hwf e he).1

/-- Witness for C4 at a singleton index. -/
theorem index_roundtrip_witness :
    get_index_dict (update_index_file
        ([entryA].map fun e => (e.path, encodeE e))) =
      some ([entryA].map fun e => (e.path, encodeE e)) ∧
    ∀ e ∈ [entryA], decodeLine (encodeE e) = e :=
  index_roundtrip [entryA] (by decide) (by decide)

/-- C2: `add` on a path that already has an index entry rewrites it with
working and staged hash equal to the digest of the current content and the
committed field copied unchanged from the old line (`state[97:137]`); a path
with no entry gets a new line whose committed field is the 40-space
sentinel. -/
theorem add_upserts_entry (sha1 : Str → Str) (st : Repo)
    (path content mt : Str) (e : Entry)
    (htree : lookupD st.tree path = some (some content, mt)) :
    ((lookupD st.index path = some (encodeE e)) → WfFields e →
      ∃ st', lgit_add sha1 st [path] = Except.ok st' ∧
        lookupD st'.index path =
          some (fmt5 mt (sha1 content) (sha1 content) e.committed path)) ∧
    (lookupD st.index path = none →
      ∃ st', lgit_add sha1 st [path] = Except.ok st' ∧
        lookupD st'.index path =
          some (fmt5 mt (sha1 content) (sha1 content) sp40 path)) := by
  constructor
  · intro hidx hwf
    obtain ⟨hm, _, hw, _, hs, _, hc, _⟩ := hwf
    have hrun : lgit_add sha1 st [path] = Except.ok { st with
        store := add_file st.store content (sha1 content)
        index := insertD st.index path
          (change_info sha1 content mt (encodeE e) path) } := by
      simp [lgit_add, add_loop, htree, hidx]
    refine ⟨_, hrun, ?_⟩
    show lookupD (insertD st.index path
      (change_info sha1 content mt (encodeE e) path)) path = _
    rw [lookupD_insertD_self]
    rw [show change_info sha1 content mt (encodeE e) path =
        fmt5 mt (sha1 content) (sha1 content)
          (pySlice (encodeE e) 97 137) path from rfl]
    rw [show pySlice (encodeE e) 97 137 = e.committed from
      pySlice_fmt5_committed hm hw hs hc]
  · intro hidx
    have hrun : lgit_add sha1 st [path] = Except.ok { st with
        store := add_file st.store content (sha1 content)
        index := insertD st.index path
          (create_info sha1 content mt path) } := by
      simp [lgit_add, add_loop, htree, hidx]
    refine ⟨_, hrun, ?_⟩
    show lookupD (insertD st.index path
      (create_info sha1 content mt path)) path = _
    rw [lookupD_insertD_self]
    rfl

/-- Concrete repository for the C2 witness: `a.txt` is readable and already
tracked by `entryA`'s line. -/
def repoB : Repo :=
  { tree := [(("a.txt".data), (some ['h', 'i'], ("20240101000000".data)))],
    store := [], index := [(("a.txt".data), encodeE entryA)],
    config := ("u\n".data), commits := [], snapshots := [] }

/-- Looking a key up lands on a binding of the dict. -/
theorem lookupD_mem {κ α : Type} [DecidableEq κ] (d : List (κ × α)) (k : κ)
    (v : α) (h : lookupD d k = some v) : (k, v) ∈ d := by
  induction d with
  | nil => simp [lookupD] at h
  | cons kv rest ih =>
      obtain ⟨k', v'⟩ := kv
      by_cases hk : k' = k
      · subst hk
        simp only [lookupD, if_true, Option.some.injEq] at h
        simp [h]
      · simp only [lookupD, hk, if_false] at h
        exact List.mem_cons_of_mem _ (ih h)

/-- The lines `create_snap_file` appends: one `<staged_hash> <path>\n` per
entry, in index order. -/
def snapLines (es : List Entry) : Str :=
  (es.map fun e => e.staged ++ ' ' :: (e.path ++ ['\n'])).flatten

/-- What the `create_snap_file` loop does to a well-formed index whose files
are all readable: it emits exactly the snapshot lines of the entries and
rewrites each entry with its committed field equal to its old staged hash. -/
theorem snap_loop_spec (sha1 : Str → Str) (tree : Tree) (es : List Entry)
    (hsha : ∀ b, (sha1 b).length = 40)
    (hwf : ∀ e ∈ es, WfFields e)
    (htree : ∀ e ∈ es, (hash_sha1 sha1 tree e.path).isSome = true)
    (hmt : ∀ pcm ∈ tree, (pcm.2.2 : Str).length = 14) :
    ∀ newIdx : Dict, ∀ snap : Str,
      ∃ d', snap_loop sha1 tree newIdx snap
          (es.map fun e => (e.path, encodeE e)) =
            ((d', snap ++ snapLines es), true) ∧
        d'.map (fun pv => (pv.1, pySlice pv.2 97 137)) =
          newIdx.map (fun pv => (pv.1, pySlice pv.2 97 137)) ++
            (es.map fun e => (e.path, e.staged)) := by
  induction es with
  | nil =>
      intro newIdx snap
      exact ⟨newIdx, by simp [snap_loop, snapLines], by simp⟩
  | cons e rest ih =>
      intro newIdx snap
      have hsome := htree e (by simp)
      simp only [hash_sha1] at hsome
      cases heq : lookupD tree e.path with
      | none => rw [heq] at hsome; simp at hsome
      | some cm =>
      obtain ⟨copt, mtv⟩ := cm
      rw [heq] at hsome
      cases copt with
      | none => simp at hsome
      | some content =>
      obtain ⟨hm, _, hw, _, hs, _, hc, _⟩ := hwf e (by simp)
      have hmtv : mtv.length = 14 :=
        hmt (e.path, (some content, mtv)) (lookupD_mem tree e.path _ heq)
      have hslice : pySlice (encodeE e) 56 96 = e.staged :=
        pySlice_fmt5_staged hm hw hs
      obtain ⟨d', hloop, hproj⟩ :=
        ih (fun e' he' => hwf e' (by simp [he']))
          (fun e' he' => htree e' (by simp [he']))
          (newIdx ++ [(e.path,
            fmt5 mtv (sha1 content) (pySlice (encodeE e) 56 96)
              (pySlice (encodeE e) 56 96) e.path)])
          (snap ++ (pySlice (encodeE e) 56 96 ++ ' ' :: (e.path ++ ['\n'])))
      refine ⟨d', ?_, ?_⟩
      · simp only [List.map_cons, snap_loop, heq, Option.map_some', pyStr]
        rw [hloop, hslice]
        have hassoc : snap ++ (e.staged ++ ' ' :: (e.path ++ ['\n'])) ++
            snapLines rest = snap ++ snapLines (e :: rest) := by
          simp [snapLines, List.append_assoc]
        rw [hassoc]
      · rw [hproj]
        have hcslice : pySlice (fmt5 mtv (sha1 content)
            (pySlice (encodeE e) 56 96) (pySlice (encodeE e) 56 96) e.path)
              97 137 = e.staged := by
          rw [hslice]
          exact pySlice_fmt5_committed hmtv (hsha content) hs hs
        simp [hcslice, List.append_assoc]

/-- C1: with a non-empty index of well-formed entries, readable files, a
non-empty author and a fresh snapshot key, `commit` succeeds, the snapshot
file holds exactly one `<staged_hash> <path>` line per index entry that
existed at commit time, and afterwards every entry's committed field
(`state[97:137]`) equals the staged hash that entry had at commit time. -/
theorem commit_snapshot_complete (sha1 : Str → Str) (st : Repo)
    (es : List Entry) (message t1 t2 : Str)
    (hsha : ∀ b, (sha1 b).length = 40)
    (hidx : st.index = es.map fun e => (e.path, encodeE e))
    (hwf : ∀ e ∈ es, WfFields e)
    (hne : es ≠ [])
    (htree : ∀ e ∈ es, (hash_sha1 sha1 st.tree e.path).isSome = true)
    (hmt : WfTree st)
    (hauthor : pyStrip st.config '\n' ≠ [])
    (hfresh : lookupD st.snapshots t1 = none) :
    ∃ st', lgit_commit sha1 st message t1 t2 = Except.ok st' ∧
      lookupD st'.snapshots t1 = some (snapLines es) ∧
      st'.index.map (fun pv => (pv.1, pySlice pv.2 97 137)) =
        es.map fun e => (e.path, e.staged) := by
  obtain ⟨d', hloop, hproj⟩ :=
    snap_loop_spec sha1 st.tree es hsha hwf htree hmt [] []
  have hsnap : snapLines es ≠ [] := by
    obtain ⟨e0, rest0, heq⟩ := List.exists_cons_of_ne_nil hne
    rw [heq]
    simp [snapLines]
  have hrun : lgit_commit sha1 st message t1 t2 = Except.ok { st with
      commits := insertD st.commits t1 (pyStrip st.config '\n' ++
        '\n' :: (t2 ++ '\n' :: '\n' :: (message ++ ['\n'])))
      index := d'
      snapshots := appendD st.snapshots t1 (snapLines es) } := by
    simp only [lgit_commit, create_commit_file, if_neg hauthor]
    rw [hidx, hloop]
    simp only [List.nil_append, if_neg hsnap]
  refine ⟨_, hrun, ?_, ?_⟩
  · show lookupD (appendD st.snapshots t1 (snapLines es)) t1 = _
    rw [lookupD_appendD_self st.snapshots t1 (snapLines es) hfresh]
  · simpa using hproj

/-- Concrete repository for C8: `a.txt` is tracked by a well-formed index
line whose staged blob is in the store, and the working-tree file exists but
cannot be read (`getmtime` succeeds, `open` raises `PermissionError`). -/
def repoE : Repo :=
  { tree := [(("a.txt".data),
      ((none : Option Str), ("20240101000000".data)))],
    store := [((digest40.take 2, digest40.drop 2), ['h', 'i'])],
    index := [(("a.txt".data), encodeE entryA)],
    config := ("alice\n".data), commits := [], snapshots := [] }

/-- The index line `status` persists for `a.txt` of `repoE`: the literal
four-character text `None` sits in the working-hash field, shifting every
later fixed offset of the line. -/
def statusNoneLine : Str :=
  fmt5 ("20240101000000".data) (pyStr none)
    (pySlice (encodeE entryA) 56 96) (pySlice (encodeE entryA) 97 137)
    ("a.txt".data)

/-- C8: the staged-blob invariant is NOT preserved by every operation.  In
`repoE` every entry's `state[56:96]` names a stored blob, yet running
`status` on its existing-but-unreadable file completes normally and rewrites
the index with the text `None` as the working-hash field; the persisted line
is offset-shifted, so its `state[56:96]` (now a mix of staged-hash tail and
committed-field head) no longer names any stored blob.  The same rewrite
happens in `create_snap_file` on commit. -/
theorem status_breaks_staged_blob_invariant :
    StoreInv repoE ∧
    runCmd constSha1 Cmd.status repoE =
      Except.ok { repoE with index := [(("a.txt".data), statusNoneLine)] } ∧
    ¬ StoreInv { repoE with index := [(("a.txt".data), statusNoneLine)] } :=
  ⟨by decide, rfl, by decide⟩

/-- The paths `status` reports as changes to be committed:
`state[56:96] != state[97:137]` (staged differs from committed). -/
def stagedList (es : List Entry) : List Str :=
  (es.filter fun e => e.staged ≠ e.committed).map (·.path)

/-- The paths `status` reports as not staged for commit:
`state[56:96] != hash_sha1(path)` (staged differs from the freshly
recomputed working hash). -/
def notStagedList (sha1 : Str → Str) (tree : Tree) (es : List Entry) :
    List Str :=
  (es.filter fun e => hash_sha1 sha1 tree e.path ≠ some e.staged).map (·.path)

/-- Membership of a path in a filtered path list reduces to the predicate at
that entry, given duplicate-free paths. -/
theorem mem_filter_path (es : List Entry) (pred : Entry → Prop)
    [DecidablePred pred] (e : Entry) (he : e ∈ es)
    (hnd : (es.map (·.path)).Nodup) :
    (e.path ∈ (es.filter fun e' => pred e').map (·.path)) ↔ pred e := by
  constructor
  · intro h
    obtain ⟨e', he', hpath⟩ := List.mem_map.mp h
    have hf := List.mem_filter.mp he'
    have heq : e' = e := List.inj_on_of_nodup_map hnd hf.1 he hpath
    subst heq
    simpa using hf.2
  · intro hp
    exact List.mem_map.mpr ⟨e, List.mem_filter.mpr ⟨he, by simpa using hp⟩, rfl⟩

/-- What the status loop computes over a well-formed index with readable
files: the two classification lists, appended to the accumulators. -/
theorem status_loop_spec (sha1 : Str → Str) (tree : Tree) (es : List Entry)
    (hwf : ∀ e ∈ es, WfFields e)
    (htree : ∀ e ∈ es, (hash_sha1 sha1 tree e.path).isSome = true) :
    ∀ newIdx : Dict, ∀ l1 l2 : List Str, ∃ d',
      status_loop sha1 tree newIdx l1 l2
        (es.map fun e => (e.path, encodeE e)) =
          ((d', l1 ++ stagedList es, l2 ++ notStagedList sha1 tree es),
            true) := by
  induction es with
  | nil =>
      intro newIdx l1 l2
      exact ⟨newIdx, by simp [status_loop, stagedList, notStagedList]⟩
  | cons e rest ih =>
      intro newIdx l1 l2
      have hsome := htree e (by simp)
      simp only [hash_sha1] at hsome
      cases heq : lookupD tree e.path with
      | none => rw [heq] at hsome; simp at hsome
      | some cm =>
      obtain ⟨copt, mtv⟩ := cm
      rw [heq] at hsome
      cases copt with
      | none => simp at hsome
      | some content =>
      obtain ⟨hm, _, hw, _, hs, _, hc, _⟩ := hwf e (by simp)
      have hs1 : pySlice (encodeE e) 56 96 = e.staged :=
        pySlice_fmt5_staged hm hw hs
      have hs2 : pySlice (encodeE e) 97 137 = e.committed :=
        pySlice_fmt5_committed hm hw hs hc
      obtain ⟨d', hloop⟩ := ih (fun e' h => hwf e' (by simp [h]))
        (fun e' h => htree e' (by simp [h]))
        (newIdx ++ [(e.path,
          fmt5 mtv (sha1 content) e.staged e.committed e.path)])
        (if e.staged ≠ e.committed then l1 ++ [e.path] else l1)
        (if pyNeHash e.staged (some (sha1 content)) = true
          then l2 ++ [e.path] else l2)
      refine ⟨d', ?_⟩
      simp only [List.map_cons, status_loop, heq, hs1, hs2,
        Option.map_some', pyStr]
      rw [hloop]
      have hl1 : (if e.staged ≠ e.committed then l1 ++ [e.path] else l1) ++
          stagedList rest = l1 ++ stagedList (e :: rest) := by
        by_cases hcond : e.staged = e.committed
        · simp [stagedList, hcond]
        · simp [stagedList, hcond, List.append_assoc]
      have hl2 : (if pyNeHash e.staged (some (sha1 content)) = true
          then l2 ++ [e.path] else l2) ++
          notStagedList sha1 tree rest =
            l2 ++ notStagedList sha1 tree (e :: rest) := by
        by_cases hcond : e.staged = sha1 content
        · simp [notStagedList, hash_sha1, heq, hcond, pyNeHash]
        · have hcond' : sha1 content ≠ e.staged := fun h => hcond h.symm
          simp [notStagedList, hash_sha1, heq, hcond, hcond', pyNeHash,
            List.append_assoc]
      rw [hl1, hl2]

/-- C3: `status` classifies every tracked path independently: with
well-formed entries, duplicate-free paths and readable files, the loop
succeeds, a path is listed to-be-committed exactly when its staged hash
differs from its committed hash, listed not-staged exactly when its staged
hash differs from the freshly recomputed working hash, and a path with all
three hashes equal appears in neither list. -/
theorem status_classification (sha1 : Str → Str) (tree : Tree)
    (es : List Entry)
    (hwf : ∀ e ∈ es, WfFields e)
    (htree : ∀ e ∈ es, (hash_sha1 sha1 tree e.path).isSome = true)
    (hnd : (es.map (·.path)).Nodup) :
    ∃ d', get_status_paths_list sha1 tree
        (es.map fun e => (e.path, encodeE e)) =
          ((d', stagedList es, notStagedList sha1 tree es), true) ∧
      ∀ e ∈ es,
        (e.path ∈ stagedList es ↔ e.staged ≠ e.committed) ∧
        (e.path ∈ notStagedList sha1 tree es ↔
          hash_sha1 sha1 tree e.path ≠ some e.staged) ∧
        (e.staged = e.committed ∧ hash_sha1 sha1 tree e.path = some e.staged →
          e.path ∉ stagedList es ∧ e.path ∉ notStagedList sha1 tree es) := by
  obtain ⟨d', hloop⟩ := status_loop_spec sha1 tree es hwf htree [] [] []
  refine ⟨d', by simpa [get_status_paths_list] using hloop, ?_⟩
  intro e he
  have h1 := mem_filter_path es (fun e' => e'.staged ≠ e'.committed) e he hnd
  have h2 := mem_filter_path es
    (fun e' => hash_sha1 sha1 tree e'.path ≠ some e'.staged) e he hnd
  refine ⟨h1, h2, ?_⟩
  rintro ⟨hsc, hwh⟩
  constructor
  · intro hmem
    exact (h1.mp hmem) hsc
  · intro hmem
    exact (h2.mp hmem) hwh

/-- Witness for C3 at `entryA` against a readable working tree. -/
theorem status_classification_witness :
    ∃ d', get_status_paths_list constSha1
        [(("a.txt".data), (some ['h', 'i'], ("20240101000000".data)))]
        ([entryA].map fun e => (e.path, encodeE e)) =
          ((d', stagedList [entryA], notStagedList constSha1
            [(("a.txt".data), (some ['h', 'i'], ("20240101000000".data)))]
            [entryA]), true) ∧
      ∀ e ∈ [entryA],
        (e.path ∈ stagedList [entryA] ↔ e.staged ≠ e.committed) ∧
        (e.path ∈ notStagedList constSha1
            [(("a.txt".data), (some ['h', 'i'], ("20240101000000".data)))]
            [entryA] ↔
          hash_sha1 constSha1
            [(("a.txt".data), (some ['h', 'i'], ("20240101000000".data)))]
            e.path ≠ some e.staged) ∧
        (e.staged = e.committed ∧ hash_sha1 constSha1
            [(("a.txt".data), (some ['h', 'i'], ("20240101000000".data)))]
            e.path = some e.staged →
          e.path ∉ stagedList [entryA] ∧ e.path ∉ notStagedList constSha1
            [(("a.txt".data), (some ['h', 'i'], ("20240101000000".data)))]
            [entryA]) :=
  status_classification constSha1
    [(("a.txt".data), (some ['h', 'i'], ("20240101000000".data)))] [entryA]
    (by decide) (by decide) (by decide)

/-- Concrete repository for the C1 witness: one tracked, readable file. -/
def repoC : Repo :=
  { tree := [(("a.txt".data), (some ['h', 'i'], ("20240101000000".data)))],
    store := [], index := [entryA].map (fun e => (e.path, encodeE e)),
    config := ("alice\n".data), commits := [], snapshots := [] }

/-- Witness for C1 at `repoC` with a singleton index. -/
theorem commit_snapshot_complete_witness :
    ∃ st', lgit_commit constSha1 repoC ['m'] ['t'] ['u'] = Except.ok st' ∧
      lookupD st'.snapshots ['t'] = some (snapLines [entryA]) ∧
      st'.index.map (fun pv => (pv.1, pySlice pv.2 97 137)) =
        [entryA].map fun e => (e.path, e.staged) :=
  commit_snapshot_complete constSha1 repoC [entryA] ['m'] ['t'] ['u']
    (fun _ => rfl) rfl (by decide) (by decide) (by decide) (by decide)
    (by decide) (by decide)

/-- Witness for C2 (existing-entry half) at `repoB`. -/
theorem add_upserts_entry_witness :
    ∃ st', lgit_add constSha1 repoB [("a.txt".data)] = Except.ok st' ∧
      lookupD st'.index ("a.txt".data) =
        some (fmt5 ("20240101000000".data) (constSha1 ['h', 'i'])
          (constSha1 ['h', 'i']) entryA.committed ("a.txt".data)) :=
  (add_upserts_entry constSha1 repoB ("a.txt".data) ['h', 'i']
    ("20240101000000".data) entryA (by decide)).1 (by decide) (by decide)

end Lgit
